import Mathlib

/-!
# Coin selection core — shallow embedding

Shallow embedding of `src/src/wallet/coinselection.h` (wallet coin selection
core). `CAmount` (signed 64-bit) is modelled as `Int`; the claims proved here
do not depend on 64-bit overflow behaviour. `std::shared_ptr<COutput>` values
are modelled by their pointer identity, a `Nat` tag, together with a heap
function `Nat → Outpoint` giving the pointee's outpoint where needed:
`std::set<std::shared_ptr<COutput>>` orders by the raw pointer value, so the
faithful model of the selected-input set is a `Finset Nat` of identities.

Function bodies that live in the companion `coinselection.cpp` (not part of
this tree) are modelled from the specification; each such definition carries
a doc comment starting with `Modelled from the spec:`.
-/

namespace CoinSelection

/-- `CHANGE_LOWER` from coinselection.h: lower bound for the randomly-chosen
target change amount. -/
def CHANGE_LOWER : Int := 50000

/-- `CHANGE_UPPER` from coinselection.h: upper bound for the randomly-chosen
target change amount. -/
def CHANGE_UPPER : Int := 1000000

/-- Model of `COutPoint`: a (txid, index) pair, with the txid abstracted to a
`Nat`. -/
abbrev Outpoint := Nat × Nat

/-- Model of `struct COutput` (coinselection.h lines 29–120). `txout` is
modelled by its `nValue` (the script plays no role in coin selection), and
the two private `std::optional<CAmount>` caches become `Option Int`. -/
structure COutput where
  outpoint : Outpoint
  nValue : Int
  depth : Int
  input_bytes : Int
  spendable : Bool
  solvable : Bool
  safe : Bool
  time : Int
  from_me : Bool
  long_term_fee : Int := 0
  effective_value : Option Int
  fee : Option Int
deriving DecidableEq, Repr

/-- Model of the first (9-argument) `COutput` constructor.  The external
`GetMinFee(input_bytes, ticks)` (declared in consensus headers outside this
tree) and the current adjusted time are passed in as parameters `getMinFee`
and `now`; the constructor body sets
`fee = input_bytes < 0 ? 0 : GetMinFee(input_bytes, now)` and
`effective_value = txout.nValue - fee.value()`. -/
def COutput.make (getMinFee : Int → Int → Int) (now : Int)
    (outpoint : Outpoint) (nValue : Int) (depth : Int) (input_bytes : Int)
    (spendable solvable safe : Bool) (time : Int) (from_me : Bool) : COutput :=
  let f : Int := if input_bytes < 0 then 0 else getMinFee input_bytes now
  { outpoint := outpoint, nValue := nValue, depth := depth,
    input_bytes := input_bytes, spendable := spendable, solvable := solvable,
    safe := safe, time := time, from_me := from_me,
    effective_value := some (nValue - f), fee := some f }

/-- Model of the second (explicit-fees) `COutput` constructor.  It delegates
to the first constructor and then runs
`assert((input_bytes < 0 && fees == 0) || (input_bytes > 0 && fees >= 0))`
before overwriting `fee` and `effective_value`; a failed assertion is
modelled as `none`. -/
def COutput.makeWithFees (getMinFee : Int → Int → Int) (now : Int)
    (outpoint : Outpoint) (nValue : Int) (depth : Int) (input_bytes : Int)
    (spendable solvable safe : Bool) (time : Int) (from_me : Bool)
    (fees : Int) : Option COutput :=
  let base := COutput.make getMinFee now outpoint nValue depth input_bytes
    spendable solvable safe time from_me
  if (input_bytes < 0 ∧ fees = 0) ∨ (input_bytes > 0 ∧ 0 ≤ fees) then
    some { base with fee := some fees, effective_value := some (nValue - fees) }
  else
    none

/-- `COutput::GetFee`: asserts the cache is set and returns it.  The claims
about the assertions themselves are stated via `Option.isSome`; for value
computations the accessor is modelled with a crash value of 0. -/
def COutput.GetFee (c : COutput) : Int := c.fee.getD 0

/-- `COutput::GetEffectiveValue`: asserts the cache is set and returns it. -/
def COutput.GetEffectiveValue (c : COutput) : Int := c.effective_value.getD 0

/-- `COutput::HasEffectiveValue`. -/
def COutput.HasEffectiveValue (c : COutput) : Bool := c.effective_value.isSome

/-- Model of `struct CoinEligibilityFilter` (coinselection.h lines 176–199).
`int` coordinates become `Int`, `uint64_t` coordinates become `Nat`. -/
structure CoinEligibilityFilter where
  conf_mine : Int
  conf_theirs : Int
  max_ancestors : Nat
  max_descendants : Nat
  includePartialGroups : Bool
deriving DecidableEq, Repr

/-- `CoinEligibilityFilter::operator<`: lexicographic comparison of the tuple
`(conf_mine, conf_theirs, max_ancestors, max_descendants,
m_include_partial_groups)` via `std::tie`. -/
def CoinEligibilityFilter.ltFilter (a b : CoinEligibilityFilter) : Bool :=
  if a.conf_mine ≠ b.conf_mine then decide (a.conf_mine < b.conf_mine)
  else if a.conf_theirs ≠ b.conf_theirs then decide (a.conf_theirs < b.conf_theirs)
  else if a.max_ancestors ≠ b.max_ancestors then decide (a.max_ancestors < b.max_ancestors)
  else if a.max_descendants ≠ b.max_descendants then decide (a.max_descendants < b.max_descendants)
  else (!a.includePartialGroups && b.includePartialGroups)

/-- Model of `struct OutputGroup` (coinselection.h lines 202–237).  The UTXO
list holds shared-pointer identities. -/
structure OutputGroup where
  m_outputs : List Nat
  m_from_me : Bool := true
  m_value : Int := 0
  m_depth : Int := 999
  m_ancestors : Nat := 0
  m_descendants : Nat := 0
  effective_value : Int := 0
  fee : Int := 0
  m_subtract_fee_outputs : Bool := false
  m_weight : Int := 0
deriving DecidableEq, Repr

/-- Modelled from the spec: the body of `OutputGroup::EligibleForSpending`
lives in the companion source.  Spec §3: a group is eligible iff
`depth ≥ conf_mine` when `from_me`, else `depth ≥ conf_theirs`; and
`ancestors ≤ max_ancestors`; and `descendants ≤ max_descendants`. -/
def OutputGroup.EligibleForSpending (g : OutputGroup)
    (f : CoinEligibilityFilter) : Bool :=
  (if g.m_from_me then decide (f.conf_mine ≤ g.m_depth)
   else decide (f.conf_theirs ≤ g.m_depth))
  && decide (g.m_ancestors ≤ f.max_ancestors)
  && decide (g.m_descendants ≤ f.max_descendants)

/-- Model of `enum class SelectionAlgorithm`. -/
inductive SelectionAlgorithm where
  | BNB
  | KNAPSACK
  | SRD
  | MANUAL
deriving DecidableEq, Repr

/-- Model of `struct SelectionResult` (coinselection.h lines 309–395).
`m_selected_inputs : std::set<std::shared_ptr<COutput>>` orders shared
pointers by raw pointer value, so it is modelled as a `Finset Nat` of
pointer identities. -/
structure SelectionResult where
  m_selected_inputs : Finset Nat
  m_target : Int
  m_algo : SelectionAlgorithm
  m_use_effective : Bool := false
  m_waste : Option Int := none
  m_weight : Int := 0
deriving DecidableEq

/-- The `SelectionResult(target, algo)` constructor. -/
def SelectionResult.make (target : Int) (algo : SelectionAlgorithm) :
    SelectionResult :=
  { m_selected_inputs := ∅, m_target := target, m_algo := algo }

/-- `SelectionResult::InsertInputs` (header template, lines 325–334): records
the expected combined size, unions in the new inputs, and throws
`"Shared UTXOs among selection results"` when deduplication shrank the
result below the expected size. -/
def SelectionResult.InsertInputs (r : SelectionResult)
    (inputs : Finset Nat) : Except String SelectionResult :=
  let expected_count := r.m_selected_inputs.card + inputs.card
  let merged := r.m_selected_inputs ∪ inputs
  if merged.card = expected_count then
    Except.ok { r with m_selected_inputs := merged }
  else
    Except.error "Shared UTXOs among selection results"

/-- Modelled from the spec: the body of `SelectionResult::AddInputs` lives in
the companion source; spec §4.7: the bulk variant inserts the set (failing
loudly on a duplicate via `InsertInputs`) and sets
`use_effective = !subtract_fee_outputs`. -/
def SelectionResult.AddInputs (r : SelectionResult) (inputs : Finset Nat)
    (subtract_fee_outputs : Bool) : Except String SelectionResult :=
  match r.InsertInputs inputs with
  | Except.ok r2 => Except.ok { r2 with m_use_effective := !subtract_fee_outputs }
  | Except.error e => Except.error e

/-- Modelled from the spec: the body of `SelectionResult::AddInput` lives in
the companion source; spec §4.7: it adds every UTXO of the group
(`InsertInputs` over the group's vector, whose element count — duplicates
included — feeds the expected size), accumulates the group weight, and fails
if any UTXO is already present. -/
def SelectionResult.AddInput (r : SelectionResult) (g : OutputGroup) :
    Except String SelectionResult :=
  let expected_count := r.m_selected_inputs.card + g.m_outputs.length
  let merged := r.m_selected_inputs ∪ g.m_outputs.toFinset
  if merged.card = expected_count then
    Except.ok { r with m_selected_inputs := merged,
                       m_weight := r.m_weight + g.m_weight }
  else
    Except.error "Shared UTXOs among selection results"

/-- Modelled from the spec: the body of `SelectionResult::Merge` lives in the
companion source; spec §4.7: merge requires disjoint input sets (failing
loudly via `InsertInputs`), unions inputs, sums weight, and clears the
cached waste. -/
def SelectionResult.Merge (r other : SelectionResult) :
    Except String SelectionResult :=
  match r.InsertInputs other.m_selected_inputs with
  | Except.ok r2 =>
      Except.ok { r2 with m_weight := r.m_weight + other.m_weight,
                          m_waste := none }
  | Except.error e => Except.error e

/-- "All selected UTXOs have distinct outpoints" for a selection result,
relative to a heap mapping each shared-pointer identity to its pointee's
outpoint. -/
def SelectionResult.DistinctOutpoints (heap : Nat → Outpoint)
    (r : SelectionResult) : Prop :=
  ∀ a ∈ r.m_selected_inputs, ∀ b ∈ r.m_selected_inputs,
    heap a = heap b → a = b

instance (heap : Nat → Outpoint) (r : SelectionResult) :
    Decidable (r.DistinctOutpoints heap) := by
  unfold SelectionResult.DistinctOutpoints; infer_instance

/-- Modelled from the spec: the body of `GetSelectionWaste` lives in the
companion source.  Header doc (lines 263–280) and spec §4.2: a single loop
accumulates `fee − long_term_fee` and the selected value (effective value
when `use_effective_value`, raw value otherwise); then
`waste += change_cost` when change exists (`change_cost` nonzero), else
`waste += selected − target`. -/
def GetSelectionWaste (inputs : List COutput) (change_cost : Int)
    (target : Int) (use_effective_value : Bool) : Int :=
  let acc := inputs.foldl
    (fun (a : Int × Int) (c : COutput) =>
      (a.1 + (c.GetFee - c.long_term_fee),
       a.2 + (if use_effective_value then c.GetEffectiveValue else c.nValue)))
    (0, 0)
  if change_cost = 0 then acc.1 + (acc.2 - target) else acc.1 + change_cost

/-- Modelled from the spec: the body of `GenerateChangeTarget` lives in the
companion source.  Header doc (lines 283–297) and spec §4.6: the result is
`change_fee + r` where `r = CHANGE_LOWER` when
`payment_value × 2 ≤ CHANGE_LOWER`, and otherwise `r` is drawn uniformly
from `[CHANGE_LOWER, min(2 × payment_value, CHANGE_UPPER)]` inclusive.  The
randomness context is modelled by a `Nat` seed; the uniform draw from the
inclusive interval is `lo + seed % (hi − lo + 1)`. -/
def GenerateChangeTarget (payment_value change_fee : Int) (rng : Nat) : Int :=
  if payment_value * 2 ≤ CHANGE_LOWER then
    change_fee + CHANGE_LOWER
  else
    let hi := min (2 * payment_value) CHANGE_UPPER
    change_fee + (CHANGE_LOWER + (rng : Int) % (hi - CHANGE_LOWER + 1))

/-- Modelled from the spec: the body of `SelectCoinsBnB` lives in the
companion source.  Spec §4.3: depth-first search over the (descending-sorted)
positive effective values with an include branch and an exclude branch per
node, pruning when the running sum plus the remaining tail sum cannot reach
`T` and when the running sum overshoots `T + ε`; a node whose running sum
lands in `[T, T + ε]` is a candidate, and between in-window candidates the
one with the lowest excess `S − T` (lowest waste under the no-change
formula) is preferred.  Groups are represented by their effective values and
a result by the list of selected effective values.  The node budget is not
modelled (taken as sufficient for the pool). -/
def bnbDFS (T eps : Int) : List Int → Int → Option (List Int)
  | [], S =>
    if S + 0 < T then none
    else if T + eps < S then none
    else if T ≤ S then some []
    else none
  | g :: rest, S =>
    if S + (g :: rest).sum < T then none
    else if T + eps < S then none
    else if T ≤ S then some []
    else
      match bnbDFS T eps rest (S + g), bnbDFS T eps rest S with
      | some s1, some s2 =>
          if g + s1.sum ≤ s2.sum then some (g :: s1) else some s2
      | some s1, none => some (g :: s1)
      | none, some s2 => some s2
      | none, none => none

/-- Modelled from the spec: `SelectCoinsBnB(utxo_pool, selection_target,
cost_of_change)` sorts the pool by effective value descending and runs the
branch-and-bound search from the empty selection. -/
def SelectCoinsBnB (utxo_pool : List Int) (selection_target : Int)
    (cost_of_change : Int) : Option (List Int) :=
  bnbDFS selection_target cost_of_change
    (utxo_pool.insertionSort (fun a b => b ≤ a)) 0

/-- Modelled from the spec: the body of `SelectCoinsSRD` lives in the
companion source.  Spec §4.4: draw groups uniformly at random without
replacement, accumulating effective value until it reaches the target, and
fail if the pool is exhausted first.  The random draw order is modelled by
quantifying over the (already shuffled) pool order; the loop carries the
accumulated effective value and the selected values. -/
def srdLoop (target : Int) : List Int → Int → List Int → Option (List Int)
  | [], S, sel => if target ≤ S then some sel else none
  | g :: rest, S, sel =>
    if target ≤ S then some sel else srdLoop target rest (S + g) (g :: sel)

/-- Modelled from the spec: `SelectCoinsSRD(utxo_pool, target_value, rng)`,
with the rng's shuffle absorbed into the pool order (the theorems quantify
over every pool order). -/
def SelectCoinsSRD (utxo_pool : List Int) (target_value : Int) :
    Option (List Int) :=
  srdLoop target_value utxo_pool 0 []

/-! ## Concrete values used by counterexamples and witnesses -/

/-- A heap assigning every shared-pointer identity the same outpoint. -/
def cexHeap : Nat → Outpoint := fun _ => (7, 0)

/-- An empty manual selection result. -/
def cexEmpty : SelectionResult :=
  SelectionResult.make 0 SelectionAlgorithm.MANUAL

/-- The result of bulk-adding identities 0 and 1 to `cexEmpty`. -/
def cexPair : SelectionResult :=
  { m_selected_inputs := {0, 1}, m_target := 0,
    m_algo := SelectionAlgorithm.MANUAL, m_use_effective := true }

/-- A concrete `COutput` built by the explicit-fees constructor with
`nValue = 100`, `input_bytes = 3`, `fees = 7`. -/
def cexCoin : COutput :=
  { outpoint := (0, 0), nValue := 100, depth := 1, input_bytes := 3,
    spendable := true, solvable := true, safe := true, time := 0,
    from_me := true, effective_value := some 93, fee := some 7 }

/-! ## Theorems -/

/-- C2: `GenerateChangeTarget(p, f, rng)` lies in
`[f + CHANGE_LOWER, f + max(CHANGE_LOWER, min(2p, CHANGE_UPPER))]`; whenever
`2p ≤ CHANGE_LOWER` it returns exactly `f + 50000` for every rng; and
`p = 20000, f = 500` yields `50500` deterministically. -/
theorem change_target_bounds (p f : Int) (rng : Nat) :
    (f + CHANGE_LOWER ≤ GenerateChangeTarget p f rng ∧
     GenerateChangeTarget p f rng ≤
       f + max CHANGE_LOWER (min (2 * p) CHANGE_UPPER)) ∧
    (2 * p ≤ CHANGE_LOWER → GenerateChangeTarget p f rng = f + 50000) ∧
    GenerateChangeTarget 20000 500 rng = 50500 := by
  unfold GenerateChangeTarget CHANGE_LOWER CHANGE_UPPER
  refine ⟨?_, ?_, by norm_num⟩
  · by_cases hp : p * 2 ≤ 50000
    · simp only [if_pos hp]
      constructor
      · omega
      · have : (50000 : Int) ≤ max 50000 (min (2 * p) 1000000) := le_max_left _ _
        omega
    · simp only [if_neg hp]
      have hlo : (50001 : Int) ≤ min (2 * p) 1000000 := by
        rcases le_total (2 * p) 1000000 with h | h
        · rw [min_eq_left h]; omega
        · rw [min_eq_right h]; omega
      have hmax : max (50000 : Int) (min (2 * p) 1000000) = min (2 * p) 1000000 :=
        max_eq_right (by omega)
      have hm0 : (0 : Int) < min (2 * p) 1000000 - 50000 + 1 := by omega
      have h1 : 0 ≤ (rng : Int) % (min (2 * p) 1000000 - 50000 + 1) :=
        Int.emod_nonneg _ (by omega)
      have h2 : (rng : Int) % (min (2 * p) 1000000 - 50000 + 1) <
          min (2 * p) 1000000 - 50000 + 1 :=
        Int.emod_lt_of_pos _ hm0
      rw [hmax]
      omega
  · intro hp
    rw [if_pos (by omega)]

/-- Witness for C2 at `p = 20000`, `f = 500`, `rng = 7`. -/
theorem change_target_bounds_witness :
    GenerateChangeTarget 20000 500 7 = 500 + 50000 :=
  (change_target_bounds 20000 500 7).2.1 (by norm_num [CHANGE_LOWER])

/-- C5 counterexample: the claim asserts that a known input weight
(`input_bytes ≥ 0`) with `fees ≥ 0` passes the constructor assertion, but at
`input_bytes = 0`, `fees = 0` the assertion
`(input_bytes < 0 && fees == 0) || (input_bytes > 0 && fees >= 0)` fails and
construction is refused. -/
theorem coutput_assert_boundary_cex :
    COutput.makeWithFees (fun _ _ => 0) 0 (0, 0) 100 1 0
      true true true 0 true 0 = none := by
  decide

/-- C5 (amended): the explicit-fees `COutput` constructor succeeds exactly
when the input weight is unknown (`input_bytes < 0`) and `fees = 0`, or the
input weight is known and strictly positive (`input_bytes > 0`) and
`fees ≥ 0`. -/
theorem coutput_assert_iff (gmf : Int → Int → Int) (now : Int)
    (op : Outpoint) (v d ib : Int) (sp so sa : Bool) (t : Int) (fm : Bool)
    (fees : Int) :
    (COutput.makeWithFees gmf now op v d ib sp so sa t fm fees).isSome = true
    ↔ ((ib < 0 ∧ fees = 0) ∨ (0 < ib ∧ 0 ≤ fees)) := by
  unfold COutput.makeWithFees
  by_cases h : (ib < 0 ∧ fees = 0) ∨ (0 < ib ∧ 0 ≤ fees)
  · simp [h]
  · simp [h]

/-- Witness for C5 (amended) at `input_bytes = 2`, `fees = 5`. -/
theorem coutput_assert_iff_witness :
    (COutput.makeWithFees (fun _ _ => 0) 0 (0, 0) 100 1 2
      true true true 0 true 5).isSome = true :=
  (coutput_assert_iff (fun _ _ => 0) 0 (0, 0) 100 1 2
      true true true 0 true 5).mpr (Or.inr (by norm_num))

/-- C8: for a `COutput` built by either public constructor, the effective
value equals the raw output value minus the fee. -/
theorem effective_value_eq_value_sub_fee (gmf : Int → Int → Int) (now : Int)
    (op : Outpoint) (v d ib : Int) (sp so sa : Bool) (t : Int) (fm : Bool)
    (fees : Int) :
    ((COutput.make gmf now op v d ib sp so sa t fm).GetEffectiveValue =
      (COutput.make gmf now op v d ib sp so sa t fm).nValue -
      (COutput.make gmf now op v d ib sp so sa t fm).GetFee) ∧
    (∀ c, COutput.makeWithFees gmf now op v d ib sp so sa t fm fees = some c →
      c.GetEffectiveValue = c.nValue - c.GetFee) := by
  constructor
  · simp [COutput.make, COutput.GetEffectiveValue, COutput.GetFee]
  · intro c hc
    unfold COutput.makeWithFees at hc
    split at hc
    · cases hc
      simp [COutput.make, COutput.GetEffectiveValue, COutput.GetFee]
    · exact absurd hc (by simp)

/-- Witness for C8 at the concrete coin `cexCoin`
(nValue 100, fees 7, effective value 93). -/
theorem effective_value_eq_value_sub_fee_witness :
    cexCoin.GetEffectiveValue = cexCoin.nValue - cexCoin.GetFee :=
  (effective_value_eq_value_sub_fee (fun _ _ => 0) 0 (0, 0) 100 1 3
    true true true 0 true 7).2 cexCoin (by decide)

/-- C10: for a `COutput` created by either public constructor, the optional
`fee` and `effective_value` caches are always set, so `GetFee` and
`GetEffectiveValue` never fail their assertions and `HasEffectiveValue`
returns true. -/
theorem coutput_caches_always_set (gmf : Int → Int → Int) (now : Int)
    (op : Outpoint) (v d ib : Int) (sp so sa : Bool) (t : Int) (fm : Bool)
    (fees : Int) :
    ((COutput.make gmf now op v d ib sp so sa t fm).fee.isSome = true ∧
     (COutput.make gmf now op v d ib sp so sa t fm).effective_value.isSome = true ∧
     (COutput.make gmf now op v d ib sp so sa t fm).HasEffectiveValue = true) ∧
    (∀ c, COutput.makeWithFees gmf now op v d ib sp so sa t fm fees = some c →
      c.fee.isSome = true ∧ c.effective_value.isSome = true ∧
      c.HasEffectiveValue = true) := by
  constructor
  · simp [COutput.make, COutput.HasEffectiveValue]
  · intro c hc
    unfold COutput.makeWithFees at hc
    split at hc
    · cases hc
      simp [COutput.make, COutput.HasEffectiveValue]
    · exact absurd hc (by simp)

/-- Witness for C10 at the concrete coin `cexCoin` built by the
explicit-fees constructor. -/
theorem coutput_caches_always_set_witness :
    cexCoin.fee.isSome = true ∧ cexCoin.effective_value.isSome = true ∧
    cexCoin.HasEffectiveValue = true :=
  (coutput_caches_always_set (fun _ _ => 0) 0 (0, 0) 100 1 3
    true true true 0 true 7).2 cexCoin (by decide)

/-- The waste accumulator loop computes the two running sums. -/
lemma waste_foldl (u : Bool) (inputs : List COutput) (a b : Int) :
    inputs.foldl
      (fun (x : Int × Int) (c : COutput) =>
        (x.1 + (c.GetFee - c.long_term_fee),
         x.2 + (if u then c.GetEffectiveValue else c.nValue))) (a, b)
    = (a + (inputs.map (fun c => c.GetFee - c.long_term_fee)).sum,
       b + (inputs.map (fun c => if u then c.GetEffectiveValue else c.nValue)).sum) := by
  induction inputs generalizing a b with
  | nil => simp
  | cons c cs ih =>
      simp only [List.foldl_cons, List.map_cons, List.sum_cons, ih,
        Prod.mk.injEq]
      exact ⟨by ring, by ring⟩

/-- C4: `GetSelectionWaste` returns `C + fee_diff` when change exists
(`C > 0`) and `excess + fee_diff` with `excess = Σ v(i) − T` when there is
no change (`C = 0`), `v(i)` being the effective value when
`use_effective_value` else the raw value. -/
theorem selection_waste_formula (inputs : List COutput) (C T : Int)
    (u : Bool) :
    (0 < C → GetSelectionWaste inputs C T u =
      C + (inputs.map (fun c => c.GetFee - c.long_term_fee)).sum) ∧
    (C = 0 → GetSelectionWaste inputs C T u =
      ((inputs.map (fun c => if u then c.GetEffectiveValue else c.nValue)).sum - T)
      + (inputs.map (fun c => c.GetFee - c.long_term_fee)).sum) := by
  unfold GetSelectionWaste
  rw [waste_foldl]
  constructor
  · intro hC
    rw [if_neg (by omega)]
    ring
  · intro hC
    subst hC
    rw [if_pos rfl]
    ring

/-- Witness for C4: one selected coin with fee 7, long-term fee 0 and change
cost 5. -/
theorem selection_waste_formula_witness :
    GetSelectionWaste [cexCoin] 5 0 true =
      5 + (([cexCoin].map (fun c => c.GetFee - c.long_term_fee)).sum) :=
  (selection_waste_formula [cexCoin] 5 0 true).1 (by norm_num)

/-- C6 counterexample: `F1 = (1,1,10,10,false)` precedes
`F2 = (2,1,10,10,false)` in the lexicographic order, yet a self-sent group
at depth 1 is eligible under `F1` and not under `F2`. -/
theorem filter_lex_not_monotone_cex :
    CoinEligibilityFilter.ltFilter ⟨1, 1, 10, 10, false⟩ ⟨2, 1, 10, 10, false⟩
      = true ∧
    OutputGroup.EligibleForSpending
      { m_outputs := [], m_from_me := true, m_depth := 1 }
      ⟨1, 1, 10, 10, false⟩ = true ∧
    OutputGroup.EligibleForSpending
      { m_outputs := [], m_from_me := true, m_depth := 1 }
      ⟨2, 1, 10, 10, false⟩ = false := by
  decide

/-- C6 (amended): eligibility is monotone in the componentwise
permissiveness order on filters — if `F2` demands no more confirmations and
caps ancestors/descendants no lower than `F1`, every group eligible under
`F1` is eligible under `F2`.  (The lexicographic `operator<` of the source
does not imply this order, as the counterexample shows.) -/
theorem eligibility_monotone_pointwise (f1 f2 : CoinEligibilityFilter)
    (g : OutputGroup)
    (h1 : f2.conf_mine ≤ f1.conf_mine) (h2 : f2.conf_theirs ≤ f1.conf_theirs)
    (h3 : f1.max_ancestors ≤ f2.max_ancestors)
    (h4 : f1.max_descendants ≤ f2.max_descendants) :
    g.EligibleForSpending f1 = true → g.EligibleForSpending f2 = true := by
  intro h
  unfold OutputGroup.EligibleForSpending at h ⊢
  cases hfm : g.m_from_me <;> simp [hfm] at h ⊢ <;> omega

/-- Witness for C6 (amended): filter `(2,2,5,5,false)` relaxed to
`(1,1,10,10,false)` keeps a depth-3 self-sent group eligible. -/
theorem eligibility_monotone_pointwise_witness :
    OutputGroup.EligibleForSpending
      { m_outputs := [], m_from_me := true, m_depth := 3 }
      ⟨1, 1, 10, 10, false⟩ = true :=
  eligibility_monotone_pointwise ⟨2, 2, 5, 5, false⟩ ⟨1, 1, 10, 10, false⟩
    { m_outputs := [], m_from_me := true, m_depth := 3 }
    (by norm_num) (by norm_num) (by norm_num) (by norm_num) (by decide)

/-- `InsertInputs` succeeds exactly on identity-disjoint input sets. -/
lemma insertInputs_ok_iff (r : SelectionResult) (t : Finset Nat) :
    (r.InsertInputs t).isOk = true ↔ Disjoint r.m_selected_inputs t := by
  simp only [SelectionResult.InsertInputs]
  split_ifs with h
  · exact iff_of_true rfl (Finset.card_union_eq_card_add_card.mp h)
  · exact iff_of_false (by simp [Except.isOk, Except.toBool])
      (fun hd => h (Finset.card_union_of_disjoint hd))

/-- `AddInputs` succeeds exactly on identity-disjoint input sets. -/
lemma addInputs_ok_iff (r : SelectionResult) (t : Finset Nat) (sfo : Bool) :
    (r.AddInputs t sfo).isOk = true ↔ Disjoint r.m_selected_inputs t := by
  rw [← insertInputs_ok_iff r t]
  unfold SelectionResult.AddInputs
  cases hI : r.InsertInputs t <;> simp [hI, Except.isOk, Except.toBool]

/-- `Merge` succeeds exactly on identity-disjoint results. -/
lemma merge_ok_iff (r other : SelectionResult) :
    (r.Merge other).isOk = true ↔
      Disjoint r.m_selected_inputs other.m_selected_inputs := by
  rw [← insertInputs_ok_iff r other.m_selected_inputs]
  unfold SelectionResult.Merge
  cases hI : r.InsertInputs other.m_selected_inputs <;>
    simp [hI, Except.isOk, Except.toBool]

/-- Cardinality characterisation for inserting a UTXO vector: the expected
count uses the vector length, so success needs the vector duplicate-free and
identity-disjoint from the current selection. -/
lemma union_card_list_iff (s : Finset Nat) (l : List Nat) :
    (s ∪ l.toFinset).card = s.card + l.length ↔
      l.Nodup ∧ Disjoint s l.toFinset := by
  constructor
  · intro h
    have h1 : (s ∪ l.toFinset).card ≤ s.card + l.toFinset.card :=
      Finset.card_union_le _ _
    have h2 : l.toFinset.card ≤ l.length := List.toFinset_card_le l
    have h3 : l.toFinset.card = l.length := by omega
    have hnd : l.Nodup := by
      have h4 : (l : Multiset Nat).toFinset.card =
          Multiset.card (l : Multiset Nat) := by
        simpa using h3
      exact Multiset.coe_nodup.mp
        (Multiset.toFinset_card_eq_card_iff_nodup.mp h4)
    exact ⟨hnd, Finset.card_union_eq_card_add_card.mp (by omega)⟩
  · rintro ⟨hnd, hd⟩
    rw [Finset.card_union_of_disjoint hd, List.toFinset_card_of_nodup hnd]

/-- `AddInput` succeeds exactly when the group's UTXO vector is
duplicate-free and identity-disjoint from the current selection. -/
lemma addInput_ok_iff (r : SelectionResult) (g : OutputGroup) :
    (r.AddInput g).isOk = true ↔
      g.m_outputs.Nodup ∧ Disjoint r.m_selected_inputs g.m_outputs.toFinset := by
  simp only [SelectionResult.AddInput]
  split_ifs with h
  · exact iff_of_true rfl ((union_card_list_iff _ _).mp h)
  · exact iff_of_false (by simp [Except.isOk, Except.toBool])
      (fun hc => h ((union_card_list_iff _ _).mpr hc))

/-- On success, `AddInputs` unions the new identities into the selection. -/
lemma addInputs_inputs_eq (r : SelectionResult) (t : Finset Nat) (sfo : Bool)
    (r2 : SelectionResult) (h : r.AddInputs t sfo = Except.ok r2) :
    r2.m_selected_inputs = r.m_selected_inputs ∪ t := by
  by_cases hc : (r.m_selected_inputs ∪ t).card =
      r.m_selected_inputs.card + t.card
  · simp only [SelectionResult.AddInputs, SelectionResult.InsertInputs,
      if_pos hc] at h
    injection h with h2
    subst h2
    rfl
  · simp only [SelectionResult.AddInputs, SelectionResult.InsertInputs,
      if_neg hc] at h
    exact Except.noConfusion h

/-- C3 counterexample: bulk-adding two distinct shared-pointer identities
whose pointees carry the same outpoint succeeds, yielding a reachable
`SelectionResult` whose selected UTXOs do NOT all have distinct outpoints. -/
theorem duplicate_outpoints_accepted_cex :
    (cexEmpty.AddInputs {0, 1} false).toOption = some cexPair ∧
    ¬ cexPair.DistinctOutpoints cexHeap := by
  constructor
  · decide
  · decide

/-- C3 (amended): all selected UTXOs have distinct shared-pointer
identities; `AddInputs`/`Merge` succeed exactly when the incoming identity
set is disjoint from the current selection (failing loudly — never silently
deduplicating), `AddInput` additionally requires the group's vector itself
to be duplicate-free, and `Merge(A, B)` succeeds only when the identity sets
of `A` and `B` are disjoint. -/
theorem selection_add_merge_disjoint_iff (A B : SelectionResult)
    (inputs : Finset Nat) (g : OutputGroup) (sfo : Bool) :
    ((A.AddInputs inputs sfo).isOk = true ↔
      Disjoint A.m_selected_inputs inputs) ∧
    ((A.Merge B).isOk = true ↔
      Disjoint A.m_selected_inputs B.m_selected_inputs) ∧
    ((A.AddInput g).isOk = true ↔
      g.m_outputs.Nodup ∧ Disjoint A.m_selected_inputs g.m_outputs.toFinset) :=
  ⟨addInputs_ok_iff A inputs sfo, merge_ok_iff A B, addInput_ok_iff A g⟩

/-- Witness for C3 (amended): merging `{}`-input and `{2}`-input results
succeeds. -/
theorem selection_add_merge_disjoint_iff_witness :
    ((SelectionResult.make 1 SelectionAlgorithm.BNB).Merge
      { m_selected_inputs := {2}, m_target := 1,
        m_algo := SelectionAlgorithm.SRD }).isOk = true :=
  (selection_add_merge_disjoint_iff
    (SelectionResult.make 1 SelectionAlgorithm.BNB)
    { m_selected_inputs := {2}, m_target := 1,
      m_algo := SelectionAlgorithm.SRD }
    ∅ { m_outputs := [] } false).2.1.mpr (by decide)

/-- C9: duplicate detection compares shared-pointer identity, not
outpoints — re-adding an identity already present fails, while two distinct
identities whose pointees carry equal outpoints are both accepted into one
`SelectionResult` without error. -/
theorem dedup_by_pointer_identity (sfo : Bool) :
    (∀ (r : SelectionResult) (x : Nat), x ∈ r.m_selected_inputs →
       (r.AddInputs {x} sfo).isOk = false) ∧
    (∀ (heap : Nat → Outpoint) (x y : Nat) (T : Int)
       (algo : SelectionAlgorithm), x ≠ y → heap x = heap y →
       (((SelectionResult.make T algo).AddInputs {x, y} sfo).isOk = true ∧
        ∀ r, (SelectionResult.make T algo).AddInputs {x, y} sfo = Except.ok r →
          x ∈ r.m_selected_inputs ∧ y ∈ r.m_selected_inputs)) := by
  constructor
  · intro r x hx
    refine Bool.eq_false_iff.mpr (fun ht => ?_)
    have hd := (addInputs_ok_iff r {x} sfo).mp ht
    exact (Finset.disjoint_singleton_right.mp hd) hx
  · intro heap x y T algo hxy _
    constructor
    · exact (addInputs_ok_iff _ _ _).mpr (by simp [SelectionResult.make])
    · intro r hr
      rw [addInputs_inputs_eq _ _ _ _ hr]
      simp [SelectionResult.make]

/-- Witness for C9: identity 5 re-added to a result holding `{5}` fails;
identities 0 and 1 with a constant-outpoint heap are both accepted. -/
theorem dedup_by_pointer_identity_witness :
    (({ m_selected_inputs := {5}, m_target := 0,
        m_algo := SelectionAlgorithm.MANUAL } :
        SelectionResult).AddInputs {5} false).isOk = false ∧
    ((SelectionResult.make 0 SelectionAlgorithm.MANUAL).AddInputs
      {0, 1} false).isOk = true :=
  ⟨(dedup_by_pointer_identity false).1 _ 5 (by decide),
   ((dedup_by_pointer_identity false).2 (fun _ => (7, 0)) 0 1 0
     SelectionAlgorithm.MANUAL (by decide) rfl).1⟩

/-- The SRD loop invariant: a successful draw sequence has accumulated at
least the target. -/
lemma srdLoop_some_sum (T : Int) :
    ∀ (pool : List Int) (S : Int) (sel out : List Int),
      sel.sum = S → srdLoop T pool S sel = some out → T ≤ out.sum := by
  intro pool
  induction pool with
  | nil =>
      intro S sel out hsum h
      unfold srdLoop at h
      split_ifs at h with hT
      · cases h
        omega
  | cons g rest ih =>
      intro S sel out hsum h
      unfold srdLoop at h
      split_ifs at h with hT
      · cases h
        omega
      · exact ih (S + g) (g :: sel) out (by simp [hsum]; ring) h

/-- The SRD loop fails exactly when the pool (all nonnegative) is exhausted
below the target. -/
lemma srdLoop_none_iff (T : Int) :
    ∀ (pool : List Int) (S : Int) (sel : List Int),
      (∀ g ∈ pool, 0 ≤ g) →
      (srdLoop T pool S sel = none ↔ S + pool.sum < T) := by
  intro pool
  induction pool with
  | nil =>
      intro S sel _
      unfold srdLoop
      split_ifs with hT
      · simp
        omega
      · simp
        omega
  | cons g rest ih =>
      intro S sel hpos
      unfold srdLoop
      split_ifs with hT
      · simp only [List.sum_cons]
        have h1 : (0 : Int) ≤ g := hpos g (by simp)
        have h2 : (0 : Int) ≤ rest.sum :=
          List.sum_nonneg (fun x hx => hpos x (by simp [hx]))
        simp
        omega
      · rw [ih (S + g) (g :: sel) (fun x hx => hpos x (by simp [hx]))]
        simp only [List.sum_cons]
        constructor <;> intro <;> omega

/-- C7: for every pool of positive effective values (in any shuffle order,
i.e. for every rng) and target `T`, a successful `SelectCoinsSRD` result has
selected effective value at least `T`, and it fails exactly when the whole
pool is exhausted before the accumulated effective value reaches `T`. -/
theorem srd_coverage (utxo_pool : List Int) (T : Int)
    (hpos : ∀ g ∈ utxo_pool, 0 < g) :
    (∀ sel, SelectCoinsSRD utxo_pool T = some sel → T ≤ sel.sum) ∧
    (SelectCoinsSRD utxo_pool T = none ↔ utxo_pool.sum < T) := by
  constructor
  · intro sel h
    exact srdLoop_some_sum T utxo_pool 0 [] sel rfl h
  · have := srdLoop_none_iff T utxo_pool 0 []
      (fun g hg => le_of_lt (hpos g hg))
    rw [SelectCoinsSRD, this]
    constructor <;> intro <;> omega

/-- Witness for C7: scenario S5 — pool `[100, 100, 100, 100]`, target 250,
the draw stops after three groups with 300 ≥ 250. -/
theorem srd_coverage_witness :
    (250 : Int) ≤ ([100, 100, 100] : List Int).sum :=
  (srd_coverage [100, 100, 100, 100] 250 (by decide)).1
    [100, 100, 100] (by decide)

/-- Soundness of the BnB search: any returned selection is a sublist of the
remaining groups and lands the running sum inside `[T, T + eps]`. -/
lemma bnbDFS_sound (T eps : Int) :
    ∀ (gs : List Int) (S : Int) (sel : List Int),
      bnbDFS T eps gs S = some sel →
      sel.Sublist gs ∧ T ≤ S + sel.sum ∧ S + sel.sum ≤ T + eps := by
  intro gs
  induction gs with
  | nil =>
      intro S sel h
      unfold bnbDFS at h
      split_ifs at h with h1 h2 h3
      cases h
      exact ⟨List.Sublist.refl _, by simp only [List.sum_nil]; omega,
        by simp only [List.sum_nil]; omega⟩
  | cons g rest ih =>
      intro S sel h
      unfold bnbDFS at h
      split_ifs at h with h1 h2 h3
      · cases h
        exact ⟨List.nil_sublist _, by simp only [List.sum_nil]; omega,
          by simp only [List.sum_nil]; omega⟩
      · cases hA : bnbDFS T eps rest (S + g) with
        | some s1 =>
            cases hB : bnbDFS T eps rest S with
            | some s2 =>
                simp only [hA, hB] at h
                split_ifs at h with hc
                · cases h
                  obtain ⟨hsub, hlo, hhi⟩ := ih (S + g) s1 hA
                  exact ⟨hsub.cons₂ g, by simp only [List.sum_cons]; omega,
                    by simp only [List.sum_cons]; omega⟩
                · cases h
                  obtain ⟨hsub, hlo, hhi⟩ := ih S _ hB
                  exact ⟨hsub.cons g, hlo, hhi⟩
            | none =>
                simp only [hA, hB] at h
                cases h
                obtain ⟨hsub, hlo, hhi⟩ := ih (S + g) s1 hA
                exact ⟨hsub.cons₂ g, by simp only [List.sum_cons]; omega,
                  by simp only [List.sum_cons]; omega⟩
        | none =>
            cases hB : bnbDFS T eps rest S with
            | some s2 =>
                simp only [hA, hB] at h
                cases h
                obtain ⟨hsub, hlo, hhi⟩ := ih S _ hB
                exact ⟨hsub.cons g, hlo, hhi⟩
            | none =>
                simp only [hA, hB] at h
                exact Option.noConfusion h

/-- Completeness of the BnB search over positive values: if it returns
`none`, no sublist of the remaining groups lands the running sum inside
`[T, T + eps]` (both prunings are sound for positive values). -/
lemma bnbDFS_complete (T eps : Int) :
    ∀ (gs : List Int) (S : Int), (∀ g ∈ gs, 0 < g) →
      bnbDFS T eps gs S = none →
      ∀ s : List Int, s.Sublist gs → ¬(T ≤ S + s.sum ∧ S + s.sum ≤ T + eps) := by
  intro gs
  induction gs with
  | nil =>
      intro S _ h s hs
      have hs0 : s = [] := List.sublist_nil.mp hs
      subst hs0
      unfold bnbDFS at h
      split_ifs at h with h1 h2 h3
      · simp only [List.sum_nil]
        omega
      · simp only [List.sum_nil]
        omega
      · simp only [List.sum_nil]
        omega
  | cons g rest ih =>
      intro S hpos h s hs
      unfold bnbDFS at h
      split_ifs at h with h1 h2 h3
      · rintro ⟨hlo, hhi⟩
        have hnn : ∀ x ∈ (g :: rest), (0 : Int) ≤ x :=
          fun x hx => le_of_lt (hpos x hx)
        have hle := List.Sublist.sum_le_sum hs hnn
        omega
      · rintro ⟨hlo, hhi⟩
        have hnn : (0 : Int) ≤ s.sum :=
          List.sum_nonneg (fun x hx => le_of_lt (hpos x (hs.subset hx)))
        omega
      · cases hA : bnbDFS T eps rest (S + g) with
        | some s1 =>
            cases hB : bnbDFS T eps rest S with
            | some s2 =>
                simp only [hA, hB] at h
                split_ifs at h
            | none =>
                simp only [hA, hB] at h
                exact Option.noConfusion h
        | none =>
            cases hB : bnbDFS T eps rest S with
            | some s2 =>
                simp only [hA, hB] at h
                exact Option.noConfusion h
            | none =>
                rcases List.sublist_cons_iff.mp hs with hcase | ⟨t, rfl, ht⟩
                · exact ih S (fun x hx => hpos x (List.mem_cons_of_mem g hx))
                    hB s hcase
                · rintro ⟨hlo, hhi⟩
                  refine ih (S + g)
                    (fun x hx => hpos x (List.mem_cons_of_mem g hx)) hA t ht ?_
                  simp only [List.sum_cons] at hlo hhi
                  omega

/-- C1: every successful BnB result has selected effective value inside
`[T, T + ε]`, and over a pool of positive effective values `SelectCoinsBnB`
returns none only when no sub-multiset of the pool sums into `[T, T + ε]`
(the search budget is taken as sufficient for the pool). -/
theorem bnb_window_and_completeness (utxo_pool : List Int) (T eps : Int)
    (hpos : ∀ g ∈ utxo_pool, 0 < g) :
    (∀ sel : List Int, SelectCoinsBnB utxo_pool T eps = some sel →
      T ≤ sel.sum ∧ sel.sum ≤ T + eps) ∧
    (SelectCoinsBnB utxo_pool T eps = none →
      ¬ ∃ sel : List Int, sel.Subperm utxo_pool ∧
        T ≤ sel.sum ∧ sel.sum ≤ T + eps) := by
  have hperm :
      (List.insertionSort (fun a b => b ≤ a) utxo_pool).Perm utxo_pool :=
    List.perm_insertionSort _ _
  constructor
  · intro sel h
    obtain ⟨hsub, hlo, hhi⟩ := bnbDFS_sound T eps _ 0 sel h
    omega
  · intro h
    rintro ⟨sel, hsp, hlo, hhi⟩
    have hsp2 : sel.Subperm (List.insertionSort (fun a b => b ≤ a) utxo_pool) :=
      (hperm.subperm_left).mpr hsp
    obtain ⟨t, htp, hts⟩ := hsp2
    have hsum : t.sum = sel.sum := htp.sum_eq
    have hposs :
        ∀ g ∈ List.insertionSort (fun a b => b ≤ a) utxo_pool, (0 : Int) < g :=
      fun g hg => hpos g (hperm.mem_iff.mp hg)
    exact bnbDFS_complete T eps _ 0 hposs h t hts ⟨by omega, by omega⟩

/-- Witness for C1: scenario S1 — effective values `{300, 200, 100}`,
target 300, `ε = 0`; the result `{300}` sits in the window. -/
theorem bnb_window_witness :
    (300 : Int) ≤ ([300] : List Int).sum ∧
    ([300] : List Int).sum ≤ 300 + 0 :=
  (bnb_window_and_completeness [300, 200, 100] 300 0 (by decide)).1
    [300] (by decide)

end CoinSelection
